import Mathlib

/-!
Vending machine: currency decomposition and purchase logic.

A shallow embedding of `vending-machine.cpp`.

* `double` amounts are embedded as exact rationals (`ℚ`) and their arithmetic is
  exact. General statements about amounts are therefore made through the
  operations of the code themselves, or for amounts on which the `double`
  arithmetic is exact (`ExactAmount`); `reduceLoopRounded` is the loop of `reduce`
  with a subtraction that rounds.
* `unsigned int` counts are natural numbers below `2 ^ 32`; the conversion
  `(int)amount` wraps around modulo `2 ^ 32` into the signed range, and `-=` on
  counts is the difference modulo `2 ^ 32`.
* The `int` counter of `Price::reduce` is an integer in the range of `int`; the
  increment past `2 ^ 31 - 1` wraps around to `-2 ^ 31`, as the compiled program
  does (in the language the overflow is undefined behaviour).
* A loop that may fail to terminate is run on fuel and yields `none` exactly when
  the fuel is exhausted while the loop condition still holds.
-/

set_option autoImplicit false

/-! ## Tolerance comparison -/

/-- The tolerance `0.0000000001` of `doubleEquals`. -/
def tolerance : ℚ := 1 / 10000000000

/-- Function `doubleEquals(firstVal, secondVal)`:
`fabs(firstVal - secondVal) < 0.0000000001`. -/
@[irreducible]
def doubleEquals (firstVal secondVal : ℚ) : Bool :=
  decide (|firstVal - secondVal| < tolerance)

/-! ## Drink -/

/-- Class `Drink`: a beverage identified by its name. -/
structure Drink where
  name : String
  deriving DecidableEq, Repr

namespace Drink

/-- Constructor `Drink() = default`: the default constructed drink has the empty name. -/
def default : Drink := ⟨""⟩

/-- Operator `Drink::operator==(const std::string&)`: `this->name == right`. -/
def eqString (d : Drink) (right : String) : Bool :=
  d.name == right

end Drink

/-! ## Price -/

/-- Struct `Price::Coin`: a denomination together with how many of it are used. The
field `amount` is an `int`; the counts that `reduce` stores in it lie in the range
of `int` (see `wrapInt`). -/
structure Coin where
  amount : Int
  coinValue : ℚ
  deriving DecidableEq

/-- Struct `Price::CoinArray`: the vector of coins. -/
abbrev CoinArray := List Coin

/-- Class `Price`: a currency value. -/
structure Price where
  value : ℚ
  deriving DecidableEq

namespace Price

/-- Operator `Price::operator>=`: `this->value >= right.value`. -/
def ge (p right : Price) : Bool :=
  decide (p.value ≥ right.value)

/-- Operator `Price::operator-`: `this->value - other.value`. -/
def sub (p other : Price) : Price :=
  ⟨p.value - other.value⟩

/-- Operator `Price::operator*(const int&)`: `this->value * other`. -/
def mul (p : Price) (other : Int) : Price :=
  ⟨p.value * other⟩

/-- The value of an integer result stored in an `int`: the result modulo `2 ^ 32`
in the range from `-2 ^ 31` to `2 ^ 31 - 1`. -/
def wrapInt (x : Int) : Int :=
  (x + 2147483648) % 4294967296 - 2147483648

/-- The loop `while ( val > cat ) { val -= cat; amount++; }` of `Price::reduce`,
run for at most `fuel` iterations. The result is the final `(val, amount)`, or
`none` when the loop condition still holds after `fuel` iterations. -/
def reduceLoop : Nat → ℚ → ℚ → Int → Option (ℚ × Int)
  | 0, val, cat, amount =>
      if val > cat then none else some (val, amount)
  | fuel + 1, val, cat, amount =>
      if val > cat then reduceLoop fuel (val - cat) cat (wrapInt (amount + 1))
      else some (val, amount)

/-- The loop of `Price::reduce` when the subtraction `val -= cat` delivers
`fl (val - cat)`, the exact difference rounded to a `double` by `fl`; `reduceLoop`
is the case of a subtraction that is exact. -/
def reduceLoopRounded (fl : ℚ → ℚ) : Nat → ℚ → ℚ → Int → Option (ℚ × Int)
  | 0, val, cat, amount =>
      if val > cat then none else some (val, amount)
  | fuel + 1, val, cat, amount =>
      if val > cat then
        reduceLoopRounded fl fuel (fl (val - cat)) cat (wrapInt (amount + 1))
      else some (val, amount)

/-- Rounding to the nearest multiple of `step`. The `double` values from `2 ^ 56`
up to `2 ^ 57` are the multiples of 16 there, so for a result in that range the
`double` rounding is `roundToMultiple 16` (apart from how a tie is broken). -/
def roundToMultiple (step q : ℚ) : ℚ :=
  step * (round (q / step) : Int)

/-- Number of iterations granted to the loop of `Price::reduce`: for a positive
category the loop runs fewer than `⌈val / cat⌉` times, and for a category that is
not positive the loop, once entered, never ends. -/
@[irreducible]
def reduceFuel (val cat : ℚ) : Nat :=
  ⌈val / cat⌉₊

/-- Function `Price::reduce( double& val, double cat )`: the returned coin together with
the updated `val`; `none` when the subtraction loop does not terminate. -/
def reduce (val cat : ℚ) : Option (Coin × ℚ) :=
  if doubleEquals val cat then
    some (⟨1, cat⟩, 0)
  else
    match reduceLoop (reduceFuel val cat) val cat 0 with
    | none => none
    | some (val', amount) => some (⟨amount, cat⟩, val')

/-- The loop `for ( double &i : allowedCoins ) res.coins.push_back( reduce( tmp, i ) )`
of `Price::asCoins`, threading `tmp` and the coins pushed so far. -/
def asCoinsLoop : List ℚ → ℚ → CoinArray → Option (CoinArray × ℚ)
  | [], tmp, res => some (res, tmp)
  | i :: rest, tmp, res =>
      match reduce tmp i with
      | none => none
      | some (coin, tmp') => asCoinsLoop rest tmp' (res ++ [coin])

/-- Function `Price::asCoins( std::vector< double > allowedCoins )`: the coins are
cleared when the remaining `tmp` is not tolerance-equal to zero; `none` when a
subtraction loop does not terminate. -/
def asCoins (p : Price) (allowedCoins : List ℚ) : Option CoinArray :=
  match asCoinsLoop allowedCoins p.value [] with
  | none => none
  | some (res, tmp) =>
      if !doubleEquals 0 tmp then some [] else some res

end Price

/-- Sum of `coinValue * amount` over the entries of a breakdown. -/
def coinSum : CoinArray → ℚ
  | [] => 0
  | c :: cs => c.coinValue * c.amount + coinSum cs

/-- The breakdown that pairs each denomination with its count, in order. -/
def breakdown (allowedCoins : List ℚ) (counts : List Nat) : CoinArray :=
  List.zipWith (fun (d : ℚ) (k : Nat) => (⟨(k : Int), d⟩ : Coin)) allowedCoins counts

/-- The amount `Σ denomination * count` of a combination of the denominations. -/
def combination (allowedCoins : List ℚ) (counts : List Nat) : ℚ :=
  (List.zipWith (fun (d : ℚ) (k : Nat) => d * (k : ℚ)) allowedCoins counts).sum

/-- Amounts on which the `double` arithmetic of `asCoins` is exact: the integer
multiples of `2 ^ -32` of magnitude below `2 ^ 21`. Such an amount has at most 53
significant bits and is a `double`, the difference `val - cat` of two of them with
`0 < cat < val` is one of them again, and one that is not zero has a magnitude of
at least `2 ^ -32`, which is above the tolerance. -/
def ExactAmount (q : ℚ) : Prop :=
  (∃ j : Int, q = j / 4294967296) ∧ |q| < 2097152

/-- The greedy combination of an amount `r`: for each denomination in turn the
count `k` is the largest with `k * d <= r`, it fits the `int` counter, and the
last remainder is zero. A remainder that is twice the denomination or a larger
multiple of it is left out. -/
def GreedyCounts : ℚ → List ℚ → List Nat → Prop
  | r, [], [] => r = 0
  | r, d :: ds, k :: ks =>
      (k : ℚ) * d ≤ r ∧ r - k * d < d ∧ (r = k * d → k ≤ 1) ∧ k < 2147483648 ∧
        GreedyCounts (r - k * d) ds ks
  | _, _ :: _, [] => False
  | _, [], _ :: _ => False

/-! ## Vending machine -/

/-- Type `typedef unsigned int Count`: the number of values of the count type. -/
def countRange : Nat := 4294967296

/-- The conversion `(int)amount` of an `unsigned int`: values from `2 ^ 31` on wrap
around to the negative range. -/
def castInt (amount : Nat) : Int :=
  if amount % countRange < 2147483648 then ((amount % countRange : Nat) : Int)
  else ((amount % countRange : Nat) : Int) - (countRange : Int)

/-- The subtraction `a -= b` of `unsigned int` values: the difference modulo
`2 ^ 32`, which wraps around when `b` exceeds `a`. -/
def subCount (a b : Nat) : Nat :=
  (a + countRange - b % countRange) % countRange

/-- Struct `VendingMachine::Slot`: a drink, what one drink costs, how many drinks. -/
structure Slot where
  drink : Drink
  price : Price
  amount : Nat
  deriving DecidableEq

/-- Class `VendingMachine< Drink, Price, unsigned int >`: all slots with their drinks. -/
structure VendingMachine where
  drinks : List Slot
  deriving DecidableEq

/-- State of `buy` after its search loop: the slots, whether the loop was left by
`break` (`it != this->drinks.end()`), and the pointers `drink` and `cost`
(`none` for `nullptr`). -/
structure BuyScan where
  drinks : List Slot
  found : Bool
  drink : Option Drink
  cost : Option Price

namespace VendingMachine

/-- Function `fill( DrinkType drink, PriceType price, CountType amount )`: one slot
is pushed to the back. -/
def fill (vm : VendingMachine) (drink : Drink) (price : Price) (amount : Nat) :
    VendingMachine :=
  ⟨vm.drinks ++ [⟨drink, price, amount⟩]⟩

/-- The search loop of `buy` over the slots from `it` on, entered with the current
values of the pointers `drink` and `cost`. -/
def buyScan (selector : String) (amount : Nat) (change : Price) :
    List Slot → Option Drink → Option Price → BuyScan
  | [], drink, cost => ⟨[], false, drink, cost⟩
  | it :: rest, drink, cost =>
      if it.drink.eqString selector then
        if decide (amount ≤ it.amount) && change.ge (it.price.mul (castInt amount)) then
          ⟨{ it with amount := subCount it.amount amount } :: rest, true,
            some it.drink, some it.price⟩
        else
          let r := buyScan selector amount change rest (some it.drink) (some it.price)
          ⟨it :: r.drinks, r.found, r.drink, r.cost⟩
      else
        let r := buyScan selector amount change rest drink cost
        ⟨it :: r.drinks, r.found, r.drink, r.cost⟩

/-- The loop `for ( CountType i = 0; i < amount; i++ ) change = change - (*cost);`. -/
def buyDebit : Nat → Price → Price → Price
  | 0, change, _ => change
  | i + 1, change, cost => buyDebit i (change.sub cost) cost

/-- Function `buy( T selector, CountType amount, PriceType& change )`: the returned drink,
the machine afterwards and the value of `change` afterwards. The pointers are set
whenever the search loop is left by `break`. -/
def buy (vm : VendingMachine) (selector : String) (amount : Nat) (change : Price) :
    Drink × VendingMachine × Price :=
  let r := buyScan selector amount change vm.drinks none none
  if r.found then
    match r.drink, r.cost with
    | some drink, some cost => (drink, ⟨r.drinks⟩, buyDebit amount change cost)
    | _, _ => (Drink.default, ⟨r.drinks⟩, change)
  else
    (Drink.default, ⟨r.drinks⟩, change)

/-- The condition under which the search loop of `buy` sells from slot `it`. -/
def sells (selector : String) (amount : Nat) (change : Price) (it : Slot) : Bool :=
  it.drink.eqString selector &&
    (decide (amount ≤ it.amount) && change.ge (it.price.mul (castInt amount)))

/-- Function `fill( DrinkType drink, PriceType price, CountType amount, Args ... args )`:
the variadic overload pushes one slot and calls `fill` on the remaining arguments,
given here as the list of the remaining triples; with no arguments left the call is
the single-slot `fill`. -/
def fillArgs : VendingMachine → Drink → Price → Nat → List (Drink × Price × Nat) →
    VendingMachine
  | vm, drink, price, amount, [] => vm.fill drink price amount
  | vm, drink, price, amount, (d, p, a) :: args =>
      fillArgs ⟨vm.drinks ++ [⟨drink, price, amount⟩]⟩ d p a args

/-- Function `fill( std::vector< DrinkType >, std::vector< PriceType >,
std::vector< CountType > )`: the three iterators advance together and one slot is
pushed per step until one of them reaches its end. -/
def fillVectors : VendingMachine → List Drink → List Price → List Nat → VendingMachine
  | vm, d :: drinks, p :: prices, a :: amounts =>
      fillVectors ⟨vm.drinks ++ [⟨d, p, a⟩]⟩ drinks prices amounts
  | vm, _, _, _ => vm

/-- Specification side of the bulk load: the slots `(items[i], prices[i], counts[i])`
for `i` below the shortest of the three lengths. -/
def zipSlots (items : List Drink) (prices : List Price) (counts : List Nat) : List Slot :=
  (items.zip (prices.zip counts)).map (fun t => (⟨t.1, t.2.1, t.2.2⟩ : Slot))

/-- Specification side of the bulk load: the single-slot `fill` called on the zipped
triples in order. -/
def fillRepeated (vm : VendingMachine) (items : List Drink) (prices : List Price)
    (counts : List Nat) : VendingMachine :=
  (zipSlots items prices counts).foldl (fun m s => m.fill s.drink s.price s.amount) vm

/-- The purchase loop of `main`: `buy` for each selection in turn on the running
`change`; the result lists the drinks returned. -/
def buyEach : VendingMachine → Price → List (String × Nat) →
    List Drink × VendingMachine × Price
  | vm, change, [] => ([], vm, change)
  | vm, change, (selector, amount) :: rest =>
      let r := buy vm selector amount change
      let q := buyEach r.2.1 r.2.2 rest
      (r.1 :: q.1, q.2.1, q.2.2)

/-- The machine of `main` after both calls of `fill`. -/
def mainMachine : VendingMachine :=
  fillArgs
    (fillVectors ⟨[]⟩ [⟨"Coca Cola"⟩, ⟨"Grape Soda"⟩] [⟨2⟩, ⟨3 / 2⟩] [3, 5])
    ⟨"Orange Soda"⟩ ⟨13 / 10⟩ 6
    [(⟨"Bottled Water"⟩, ⟨6 / 5⟩, 8), (⟨"Sapphire Martini"⟩, ⟨13⟩, 1)]

/-- The coins of `main`: 2.0, 1.0, 0.5, 0.2, 0.1. -/
def mainCoins : List ℚ := [2, 1, 1 / 2, 1 / 5, 1 / 10]

/-- What `main` computes: the drinks returned by the three purchases, the drink
returned by the purchase of one `Sapphire Martini`, the machine and the change at
the end, and the final change as coins. -/
structure MainResult where
  bought : List Drink
  invalid : Drink
  machine : VendingMachine
  change : Price
  coins : Option CoinArray

/-- The run of `main` from the change 12.60. -/
def mainRun : MainResult :=
  let r := buyEach mainMachine ⟨63 / 5⟩
    [("Coca Cola", 2), ("Orange Soda", 2), ("Bottled Water", 1)]
  let f := buy r.2.1 "Sapphire Martini" 1 r.2.2
  ⟨r.1, f.1, f.2.1, f.2.2, f.2.2.asCoins mainCoins⟩

end VendingMachine

/-! ## Purchase: auxiliary facts -/

namespace VendingMachine

theorem castInt_of_lt {amount : Nat} (h : amount < 2147483648) :
    castInt amount = (amount : Int) := by
  unfold castInt countRange
  have h1 : amount % 4294967296 = amount := Nat.mod_eq_of_lt (by omega)
  rw [h1, if_pos h]

theorem castInt_of_ge {amount : Nat} (h1 : 2147483648 ≤ amount)
    (h2 : amount < 4294967296) :
    castInt amount = (amount : Int) - 4294967296 := by
  unfold castInt countRange
  have h3 : amount % 4294967296 = amount := Nat.mod_eq_of_lt h2
  rw [h3, if_neg (by omega)]
  rfl

theorem buyDebit_value (amount : Nat) (change cost : Price) :
    buyDebit amount change cost = ⟨change.value - amount * cost.value⟩ := by
  induction amount generalizing change with
  | zero => simp [buyDebit]
  | succ n ih =>
      rw [buyDebit, ih]
      simp only [Price.sub, Nat.cast_succ]
      congr 1
      ring

theorem buyScan_reject (selector : String) (amount : Nat) (change : Price)
    (drinks : List Slot) (drink : Option Drink) (cost : Option Price)
    (h : ∀ s ∈ drinks, sells selector amount change s = false) :
    (buyScan selector amount change drinks drink cost).drinks = drinks ∧
      (buyScan selector amount change drinks drink cost).found = false := by
  induction drinks generalizing drink cost with
  | nil => simp [buyScan]
  | cons it rest ih =>
      have hit := h it (List.mem_cons_self _ _)
      have hrest : ∀ s ∈ rest, sells selector amount change s = false :=
        fun s hs => h s (List.mem_cons_of_mem _ hs)
      unfold buyScan
      by_cases hm : it.drink.eqString selector = true
      · have hv : (decide (amount ≤ it.amount) &&
            change.ge (it.price.mul (castInt amount))) = false := by
          simpa [sells, hm] using hit
        simp only [hm, hv, if_true]
        simpa using ih (some it.drink) (some it.price) hrest
      · simp only [hm]
        simpa using ih drink cost hrest

theorem buyScan_sale (selector : String) (amount : Nat) (change : Price)
    (pre : List Slot) (it : Slot) (post : List Slot)
    (drink : Option Drink) (cost : Option Price)
    (hpre : ∀ s ∈ pre, sells selector amount change s = false)
    (hit : sells selector amount change it = true) :
    buyScan selector amount change (pre ++ it :: post) drink cost =
      ⟨pre ++ { it with amount := subCount it.amount amount } :: post, true,
        some it.drink, some it.price⟩ := by
  induction pre generalizing drink cost with
  | nil =>
      have hm : it.drink.eqString selector = true := by
        simp [sells] at hit; exact hit.1
      have hv : (decide (amount ≤ it.amount) &&
          change.ge (it.price.mul (castInt amount))) = true := by
        simp [sells] at hit; simp [hit.2]
      simp [buyScan, hm, hv]
  | cons x rest ih =>
      have hx := hpre x (List.mem_cons_self _ _)
      have hrest : ∀ s ∈ rest, sells selector amount change s = false :=
        fun s hs => hpre s (List.mem_cons_of_mem _ hs)
      rw [List.cons_append]
      unfold buyScan
      by_cases hm : x.drink.eqString selector = true
      · have hv : (decide (amount ≤ x.amount) &&
            change.ge (x.price.mul (castInt amount))) = false := by
          simpa [sells, hm] using hx
        simp only [hm, hv, if_true]
        rw [ih (some x.drink) (some x.price) hrest]
        simp
      · simp only [hm]
        rw [ih drink cost hrest]
        simp

theorem buy_reject (vm : VendingMachine) (selector : String) (amount : Nat)
    (change : Price)
    (h : ∀ s ∈ vm.drinks, sells selector amount change s = false) :
    buy vm selector amount change = (Drink.default, vm, change) := by
  obtain ⟨h1, h2⟩ := buyScan_reject selector amount change vm.drinks none none h
  unfold buy
  simp only [h2, h1]
  simp

theorem buy_sale_wrap (selector : String) (amount : Nat) (change : Price)
    (pre : List Slot) (it : Slot) (post : List Slot)
    (hpre : ∀ s ∈ pre, sells selector amount change s = false)
    (hit : sells selector amount change it = true) :
    buy ⟨pre ++ it :: post⟩ selector amount change =
      (it.drink, ⟨pre ++ { it with amount := subCount it.amount amount } :: post⟩,
        ⟨change.value - amount * it.price.value⟩) := by
  unfold buy
  simp only [buyScan_sale selector amount change pre it post none none hpre hit]
  simp [buyDebit_value]

theorem sells_stock (selector : String) (amount : Nat) (change : Price) (it : Slot)
    (hit : sells selector amount change it = true) : amount ≤ it.amount := by
  simp only [sells, Bool.and_eq_true, decide_eq_true_eq] at hit
  exact hit.2.1

theorem subCount_of_le (a b : Nat) (h : b ≤ a) (ha : a < 4294967296) :
    subCount a b = a - b := by
  unfold subCount countRange
  omega

theorem buy_sale (selector : String) (amount : Nat) (change : Price)
    (pre : List Slot) (it : Slot) (post : List Slot)
    (hpre : ∀ s ∈ pre, sells selector amount change s = false)
    (hit : sells selector amount change it = true)
    (hw : it.amount < 4294967296) :
    buy ⟨pre ++ it :: post⟩ selector amount change =
      (it.drink, ⟨pre ++ { it with amount := it.amount - amount } :: post⟩,
        ⟨change.value - amount * it.price.value⟩) := by
  rw [buy_sale_wrap selector amount change pre it post hpre hit,
    subCount_of_le it.amount amount (sells_stock selector amount change it hit) hw]

end VendingMachine

namespace VendingMachine

theorem sells_iff_of_lt (selector : String) (amount : Nat) (change : Price) (it : Slot)
    (hn : amount < 2147483648) :
    sells selector amount change it = true ↔
      (it.drink.eqString selector = true ∧ amount ≤ it.amount ∧
        it.price.value * amount ≤ change.value) := by
  simp [sells, castInt_of_lt hn, Price.ge, Price.mul]

theorem sells_false_of_lt (selector : String) (amount : Nat) (change : Price) (it : Slot)
    (hn : amount < 2147483648)
    (h : it.drink.eqString selector = true →
      it.amount < amount ∨ change.value < it.price.value * amount) :
    sells selector amount change it = false := by
  rw [← Bool.not_eq_true, sells_iff_of_lt selector amount change it hn]
  rintro ⟨hm, hs, hf⟩
  rcases h hm with h1 | h1
  · omega
  · exact absurd hf (not_le.mpr h1)

theorem sells_of_covered (selector : String) (amount : Nat) (change : Price) (it : Slot)
    (hn : amount < 4294967296)
    (hp : amount < 2147483648 ∨ 0 ≤ it.price.value)
    (hm : it.drink.eqString selector = true)
    (hs : amount ≤ it.amount)
    (hf : it.price.value * amount ≤ change.value) :
    sells selector amount change it = true := by
  by_cases hlt : amount < 2147483648
  · exact (sells_iff_of_lt selector amount change it hlt).mpr ⟨hm, hs, hf⟩
  · have hpos : 0 ≤ it.price.value := hp.resolve_left hlt
    have hc := castInt_of_ge (not_lt.mp hlt) hn
    have hneg : it.price.value * (((amount : Int) - 4294967296 : Int) : ℚ) ≤
        it.price.value * amount := by
      apply mul_le_mul_of_nonneg_left _ hpos
      push_cast
      linarith
    simp only [sells, hm, hc, Price.ge, Price.mul, Bool.true_and, Bool.and_eq_true,
      decide_eq_true_eq]
    exact ⟨hs, le_trans hneg hf⟩

/-- The success postcondition of `buy` where the count conversion does no harm (the
count is below `2 ^ 31`, or the price is not negative): when the first slot whose
drink equals the selector has enough stock and the balance covers
`price * amount`, that slot loses `amount` units, the balance drops by
`amount * price` and the slot's drink, named as the selector, is returned. -/
theorem buy_success_of_covered (selector : String) (amount : Nat) (change : Price)
    (pre : List Slot) (it : Slot) (post : List Slot)
    (hn : amount < 4294967296)
    (hp : amount < 2147483648 ∨ 0 ≤ it.price.value)
    (hpre : ∀ s ∈ pre, s.drink.eqString selector = false)
    (hm : it.drink.eqString selector = true)
    (hs : amount ≤ it.amount)
    (hf : it.price.value * amount ≤ change.value)
    (hw : it.amount < 4294967296) :
    buy ⟨pre ++ it :: post⟩ selector amount change =
      (it.drink, ⟨pre ++ { it with amount := it.amount - amount } :: post⟩,
        ⟨change.value - amount * it.price.value⟩) ∧ it.drink.name = selector := by
  refine ⟨buy_sale selector amount change pre it post ?_ ?_ hw, ?_⟩
  · intro s hs'
    simp [sells, hpre s hs']
  · exact sells_of_covered selector amount change it hn hp hm hs hf
  · simpa [Drink.eqString] using hm

/-- The scenario of the specification: slots `Cola` (2.00, 3) and `Soda` (1.50, 5),
balance 12.60, buying 2 `Cola` leaves stock 1 and balance 8.60 and returns `Cola`. -/
theorem buy_cola_scenario :
    buy ⟨[⟨⟨"Cola"⟩, ⟨2⟩, 3⟩, ⟨⟨"Soda"⟩, ⟨3 / 2⟩, 5⟩]⟩ "Cola" 2 ⟨63 / 5⟩ =
      (⟨"Cola"⟩, ⟨[⟨⟨"Cola"⟩, ⟨2⟩, 1⟩, ⟨⟨"Soda"⟩, ⟨3 / 2⟩, 5⟩]⟩, ⟨43 / 5⟩) := by
  have h := (buy_success_of_covered "Cola" 2 ⟨63 / 5⟩ [] ⟨⟨"Cola"⟩, ⟨2⟩, 3⟩
    [⟨⟨"Soda"⟩, ⟨3 / 2⟩, 5⟩] (by norm_num) (Or.inl (by norm_num)) (by simp) (by decide)
    (by norm_num) (by norm_num) (by norm_num)).1
  rw [List.nil_append] at h
  rw [h]
  norm_num

/-- The rejection postcondition of `buy` for counts below `2 ^ 31`: when every slot
whose drink equals the selector has too little stock or a total price above the
balance, nothing changes and the default drink is returned. -/
theorem buy_rejection_small_count (vm : VendingMachine) (selector : String)
    (amount : Nat) (change : Price)
    (hn : amount < 2147483648)
    (h : ∀ s ∈ vm.drinks, s.drink.eqString selector = true →
      s.amount < amount ∨ change.value < s.price.value * amount) :
    buy vm selector amount change = (Drink.default, vm, change) :=
  buy_reject vm selector amount change
    (fun s hs => sells_false_of_lt selector amount change s hn (h s hs))

/-- C1 (code at the failing input): the single slot `Cola` has price `-1` and stock
`2 ^ 31`; with balance `0` a purchase of `2 ^ 31` units has enough stock and
`0 >= -1 * 2 ^ 31`, yet `(int)amount` is `-2 ^ 31`, the funds check compares the
balance with `2 ^ 31`, and `buy` sells nothing and returns the default drink. -/
theorem buy_wrapped_count_rejects_covered_sale :
    (2147483648 ≤ (⟨⟨"Cola"⟩, ⟨-1⟩, 2147483648⟩ : Slot).amount ∧
      (⟨⟨"Cola"⟩, ⟨-1⟩, 2147483648⟩ : Slot).price.value * (2147483648 : Nat) ≤
        (⟨0⟩ : Price).value) ∧
    buy ⟨[⟨⟨"Cola"⟩, ⟨-1⟩, 2147483648⟩]⟩ "Cola" 2147483648 ⟨0⟩ =
      (Drink.default, ⟨[⟨⟨"Cola"⟩, ⟨-1⟩, 2147483648⟩]⟩, ⟨0⟩) := by
  refine ⟨⟨by norm_num, by norm_num⟩, ?_⟩
  apply buy_reject
  intro s hs
  simp only [List.mem_singleton] at hs
  subst hs
  have hc : castInt 2147483648 = (2147483648 : Int) - 4294967296 :=
    castInt_of_ge (by norm_num) (by norm_num)
  simp [sells, hc, Price.ge, Price.mul]

/-- C2 (code at the failing input): the single slot `Cola` has price `1` and stock
`2 ^ 31`; with balance `0` the total price of `2 ^ 31` units exceeds the balance,
yet `(int)amount` is `-2 ^ 31`, the funds check passes, the whole stock is sold
and the balance becomes `-2 ^ 31`. -/
theorem buy_wrapped_count_sells_unaffordable :
    (⟨0⟩ : Price).value < (⟨⟨"Cola"⟩, ⟨1⟩, 2147483648⟩ : Slot).price.value *
        (2147483648 : Nat) ∧
    buy ⟨[⟨⟨"Cola"⟩, ⟨1⟩, 2147483648⟩]⟩ "Cola" 2147483648 ⟨0⟩ =
      (⟨"Cola"⟩, ⟨[⟨⟨"Cola"⟩, ⟨1⟩, 0⟩]⟩, ⟨-2147483648⟩) := by
  refine ⟨by norm_num, ?_⟩
  have hc : castInt 2147483648 = (2147483648 : Int) - 4294967296 :=
    castInt_of_ge (by norm_num) (by norm_num)
  have h := buy_sale "Cola" 2147483648 ⟨0⟩ [] ⟨⟨"Cola"⟩, ⟨1⟩, 2147483648⟩ []
    (by simp) (by simp [sells, hc, Price.ge, Price.mul, Drink.eqString]) (by norm_num)
  rw [List.nil_append] at h
  rw [h]
  norm_num

/-- C3: when no slot's drink equals the selector (in particular for the empty
machine), `buy` returns the default drink, whose name is empty, and leaves the
slot list and the balance unchanged. -/
theorem buy_no_match (vm : VendingMachine) (selector : String) (amount : Nat)
    (change : Price)
    (h : ∀ s ∈ vm.drinks, s.drink.eqString selector = false) :
    buy vm selector amount change = (Drink.default, vm, change) ∧
      (buy vm selector amount change).1.name = "" := by
  have hb : buy vm selector amount change = (Drink.default, vm, change) :=
    buy_reject vm selector amount change (fun s hs => by simp [sells, h s hs])
  exact ⟨hb, by rw [hb]; rfl⟩

theorem buy_no_match_witness :
    (∀ s ∈ (⟨[⟨⟨"Cola"⟩, ⟨2⟩, 3⟩, ⟨⟨"Soda"⟩, ⟨3 / 2⟩, 5⟩]⟩ : VendingMachine).drinks,
        s.drink.eqString "Fanta" = false) ∧
      (buy ⟨[⟨⟨"Cola"⟩, ⟨2⟩, 3⟩, ⟨⟨"Soda"⟩, ⟨3 / 2⟩, 5⟩]⟩ "Fanta" 1 ⟨63 / 5⟩ =
        (Drink.default, ⟨[⟨⟨"Cola"⟩, ⟨2⟩, 3⟩, ⟨⟨"Soda"⟩, ⟨3 / 2⟩, 5⟩]⟩, ⟨63 / 5⟩) ∧
      (buy ⟨[⟨⟨"Cola"⟩, ⟨2⟩, 3⟩, ⟨⟨"Soda"⟩, ⟨3 / 2⟩, 5⟩]⟩ "Fanta" 1 ⟨63 / 5⟩).1.name
        = "") :=
  ⟨by decide, buy_no_match _ "Fanta" 1 ⟨63 / 5⟩ (by decide)⟩

end VendingMachine

/-! ## Decomposition: auxiliary facts -/

namespace Price

theorem wrapInt_of_range (x : Int) (h1 : -2147483648 ≤ x) (h2 : x < 2147483648) :
    wrapInt x = x := by
  unfold wrapInt
  omega

theorem reduceLoop_wrap_of_count (cat : ℚ) (hcat : 0 < cat) (k : Nat) :
    ∀ (fuel : Nat) (val : ℚ) (amount : Int), k ≤ fuel → val - k * cat ≤ cat →
      (k ≠ 0 → k * cat < val) → wrapInt amount = amount →
      reduceLoop fuel val cat amount = some (val - k * cat, wrapInt (amount + k)) := by
  induction k with
  | zero =>
      intro fuel val amount _ h1 _ ha
      have hle : ¬ val > cat := by simpa using h1
      cases fuel <;> simp [reduceLoop, hle, ha]
  | succ k ih =>
      intro fuel val amount hfuel h1 h2 _
      obtain ⟨f, rfl⟩ : ∃ f, fuel = f + 1 := ⟨fuel - 1, by omega⟩
      have h3 : ((k + 1 : Nat) : ℚ) * cat < val := h2 (Nat.succ_ne_zero k)
      push_cast at h1 h3
      have hk : (0 : ℚ) ≤ k := Nat.cast_nonneg k
      have hgt : val > cat := by nlinarith
      have hw : wrapInt (wrapInt (amount + 1)) = wrapInt (amount + 1) := by
        unfold wrapInt; omega
      have hsum : wrapInt (wrapInt (amount + 1) + (k : Int)) =
          wrapInt (amount + ((k + 1 : Nat) : Int)) := by
        unfold wrapInt; push_cast; omega
      rw [reduceLoop, if_pos hgt, ih f (val - cat) (wrapInt (amount + 1)) (by omega)
        (by linarith) (fun _ => by linarith) hw, hsum]
      push_cast
      congr 2
      ring

theorem reduceLoop_eq_of_count (cat : ℚ) (hcat : 0 < cat) (k : Nat)
    (fuel : Nat) (val : ℚ) (hfuel : k ≤ fuel) (h1 : val - k * cat ≤ cat)
    (h2 : k ≠ 0 → k * cat < val) (hk : k < 2147483648) :
    reduceLoop fuel val cat 0 = some (val - k * cat, (k : Int)) := by
  rw [reduceLoop_wrap_of_count cat hcat k fuel val 0 hfuel h1 h2 (by decide),
    zero_add, wrapInt_of_range (k : Int) (by omega) (by omega)]

theorem count_le_reduceFuel (val cat : ℚ) (hcat : 0 < cat) (k : Nat)
    (h : k ≠ 0 → k * cat < val) : k ≤ reduceFuel val cat := by
  unfold reduceFuel
  by_cases hk : k = 0
  · omega
  · have h1 : (k : ℚ) < val / cat := (lt_div_iff₀ hcat).mpr (h hk)
    have h2 : val / cat ≤ (⌈val / cat⌉₊ : ℚ) := Nat.le_ceil _
    have h3 : (k : ℚ) < (⌈val / cat⌉₊ : ℚ) := lt_of_lt_of_le h1 h2
    exact le_of_lt (by exact_mod_cast h3)

theorem exists_count (val cat : ℚ) (hcat : 0 < cat) :
    ∃ k : Nat, val - k * cat ≤ cat ∧ (k ≠ 0 → k * cat < val) := by
  by_cases hle : val ≤ cat
  · exact ⟨0, by simpa using hle, fun h => absurd rfl h⟩
  · have hlt : cat < val := not_le.mp hle
    have hpos : 0 < val / cat := div_pos (lt_trans hcat hlt) hcat
    have hm : 0 < ⌈val / cat⌉₊ := Nat.ceil_pos.mpr hpos
    obtain ⟨k, hk⟩ : ∃ k, ⌈val / cat⌉₊ = k + 1 := ⟨⌈val / cat⌉₊ - 1, by omega⟩
    have h1 : val / cat ≤ ((k + 1 : Nat) : ℚ) := by rw [← hk]; exact Nat.le_ceil _
    have h2 : ((k + 1 : Nat) : ℚ) < val / cat + 1 := by
      rw [← hk]; exact Nat.ceil_lt_add_one (le_of_lt hpos)
    push_cast at h1 h2
    have h3 : val ≤ (k + 1) * cat := (div_le_iff₀ hcat).mp h1
    have h4 : (k : ℚ) * cat < val := (lt_div_iff₀ hcat).mp (by linarith)
    exact ⟨k, by linarith, fun _ => h4⟩

theorem reduce_of_equal (val cat : ℚ) (h : doubleEquals val cat = true) :
    reduce val cat = some (⟨1, cat⟩, 0) := by
  simp [reduce, h]

theorem reduce_of_count (val cat : ℚ) (hcat : 0 < cat)
    (hne : doubleEquals val cat = false) (k : Nat)
    (h1 : val - k * cat ≤ cat) (h2 : k ≠ 0 → k * cat < val)
    (hk : k < 2147483648) :
    reduce val cat = some (⟨(k : Int), cat⟩, val - k * cat) := by
  have h := reduceLoop_eq_of_count cat hcat k (reduceFuel val cat) val
    (count_le_reduceFuel val cat hcat k h2) h1 h2 hk
  unfold reduce
  rw [hne, h]
  simp only [Bool.false_eq_true, if_false]

theorem asCoinsLoop_step (i : ℚ) (rest : List ℚ) (tmp : ℚ) (res : CoinArray)
    (coin : Coin) (tmp' : ℚ) (h : reduce tmp i = some (coin, tmp')) :
    asCoinsLoop (i :: rest) tmp res = asCoinsLoop rest tmp' (res ++ [coin]) := by
  rw [asCoinsLoop, h]

end Price

theorem coinSum_append (xs ys : CoinArray) :
    coinSum (xs ++ ys) = coinSum xs + coinSum ys := by
  induction xs with
  | nil => simp [coinSum]
  | cons c cs ih => simp [coinSum, ih, add_assoc]

theorem coinSum_breakdown (ds : List ℚ) (counts : List Nat) :
    coinSum (breakdown ds counts) = combination ds counts := by
  induction ds generalizing counts with
  | nil => simp [breakdown, combination, coinSum]
  | cons d ds ih =>
      cases counts with
      | nil => simp [breakdown, combination, coinSum]
      | cons k ks =>
          have h := ih ks
          simp only [breakdown, combination] at h ⊢
          simp [coinSum, h]

theorem breakdown_length (ds : List ℚ) (counts : List Nat)
    (h : counts.length = ds.length) : (breakdown ds counts).length = ds.length := by
  simp [breakdown, h]

theorem combination_replicate_zero (ds : List ℚ) :
    combination ds (List.replicate ds.length 0) = 0 := by
  induction ds with
  | nil => simp [combination]
  | cons d ds ih =>
      simp only [combination] at ih
      simp [combination, List.replicate_succ, ih]

namespace Price

theorem doubleEquals_iff (a b : ℚ) :
    doubleEquals a b = true ↔ |a - b| < tolerance := by
  simp [doubleEquals]

theorem tolerance_pos : 0 < tolerance := by
  norm_num [tolerance]

theorem asCoinsLoop_acc (ds : List ℚ) (tmp : ℚ) (res : CoinArray) :
    asCoinsLoop ds tmp res =
      (asCoinsLoop ds tmp []).map (fun r => (res ++ r.1, r.2)) := by
  induction ds generalizing tmp res with
  | nil => simp [asCoinsLoop]
  | cons d ds ih =>
      rw [asCoinsLoop, asCoinsLoop]
      cases hr : reduce tmp d with
      | none => simp
      | some r =>
          obtain ⟨coin, tmp'⟩ := r
          simp only []
          rw [ih tmp' (res ++ [coin]), ih tmp' ([] ++ [coin])]
          cases asCoinsLoop ds tmp' [] with
          | none => simp
          | some q => simp

theorem reduce_zero (d : ℚ) (hd : tolerance ≤ d) :
    reduce 0 d = some (⟨0, d⟩, 0) := by
  have hpos : 0 < d := lt_of_lt_of_le tolerance_pos hd
  have hne : doubleEquals 0 d = false := by
    rw [← Bool.not_eq_true, doubleEquals_iff]
    rw [zero_sub, abs_neg, abs_of_pos hpos]
    exact not_lt.mpr hd
  have h := reduce_of_count 0 d hpos hne 0 (by simpa using le_of_lt hpos)
    (fun h => absurd rfl h) (by norm_num)
  simpa using h

theorem asCoinsLoop_zero (ds : List ℚ) (hds : ∀ d ∈ ds, tolerance ≤ d) :
    asCoinsLoop ds 0 [] = some (breakdown ds (List.replicate ds.length 0), 0) := by
  induction ds with
  | nil => simp [asCoinsLoop, breakdown]
  | cons d ds ih =>
      rw [asCoinsLoop_step d ds 0 [] _ _ (reduce_zero d (hds d (List.mem_cons_self _ _))),
        asCoinsLoop_acc, ih (fun x hx => hds x (List.mem_cons_of_mem _ hx))]
      simp [breakdown, List.replicate_succ]

theorem count_lt_of_bound (val cat : ℚ) (hcat : 0 < cat) (k : Nat)
    (h : k ≠ 0 → k * cat < val) (hb : val ≤ 2147483648 * cat) : k < 2147483648 := by
  by_cases hk : k = 0
  · omega
  · have h1 : (k : ℚ) * cat < 2147483648 * cat := lt_of_lt_of_le (h hk) hb
    have h2 : (k : ℚ) < 2147483648 := lt_of_mul_lt_mul_right h1 (le_of_lt hcat)
    exact_mod_cast h2

/-- Invariant of the loop of `asCoins` for denominations not below the tolerance
and an amount of at most `2 ^ 31` times each denomination (no counter leaves the
range of `int`): the loop returns one coin per denomination, and either the coins
and the remainder add up to the amount exactly, or the remainder is zero and the
coins are within tolerance of the amount (one tolerance-equal step was taken). -/
theorem asCoinsLoop_spec (ds : List ℚ) (hds : ∀ d ∈ ds, tolerance ≤ d) (tmp : ℚ)
    (hb : ∀ d ∈ ds, tmp ≤ 2147483648 * d) :
    ∃ (counts : List Nat) (rem : ℚ), counts.length = ds.length ∧
      asCoinsLoop ds tmp [] = some (breakdown ds counts, rem) ∧
      (combination ds counts + rem = tmp ∨
        (rem = 0 ∧ |combination ds counts - tmp| < tolerance)) := by
  induction ds generalizing tmp with
  | nil => exact ⟨[], tmp, rfl, by simp [asCoinsLoop, breakdown], Or.inl (by simp [combination])⟩
  | cons d ds ih =>
      have hd : tolerance ≤ d := hds d (List.mem_cons_self _ _)
      have hpos : 0 < d := lt_of_lt_of_le tolerance_pos hd
      have hrest : ∀ x ∈ ds, tolerance ≤ x := fun x hx => hds x (List.mem_cons_of_mem _ hx)
      have hbd : tmp ≤ 2147483648 * d := hb d (List.mem_cons_self _ _)
      by_cases he : doubleEquals tmp d = true
      · refine ⟨1 :: List.replicate ds.length 0, 0, by simp, ?_, Or.inr ⟨rfl, ?_⟩⟩
        · rw [asCoinsLoop_step d ds tmp [] _ _ (reduce_of_equal tmp d he),
            asCoinsLoop_acc, asCoinsLoop_zero ds hrest]
          simp [breakdown]
        · have hz := combination_replicate_zero ds
          simp only [combination] at hz
          have h1 := (doubleEquals_iff tmp d).mp he
          rw [abs_sub_comm] at h1
          simpa [combination, hz] using h1
      · have hne : doubleEquals tmp d = false := by simpa using he
        obtain ⟨k, hk1, hk2⟩ := exists_count tmp d hpos
        have hk3 : k < 2147483648 := count_lt_of_bound tmp d hpos k hk2 hbd
        have hkd : (0 : ℚ) ≤ k * d := mul_nonneg (Nat.cast_nonneg k) (le_of_lt hpos)
        obtain ⟨counts, rem, hlen, hloop, hsum⟩ := ih hrest (tmp - k * d)
          (fun x hx => by linarith [hb x (List.mem_cons_of_mem _ hx)])
        refine ⟨k :: counts, rem, by simp [hlen], ?_, ?_⟩
        · rw [asCoinsLoop_step d ds tmp [] _ _
              (reduce_of_count tmp d hpos hne k hk1 hk2 hk3),
            asCoinsLoop_acc, hloop]
          simp [breakdown]
        · have hc : combination (d :: ds) (k :: counts) = d * k + combination ds counts := by
            simp [combination]
          rw [hc]
          rcases hsum with h | ⟨h0, h⟩
          · left; linarith
          · right
            refine ⟨h0, ?_⟩
            have : d * (k : ℚ) + combination ds counts - tmp =
                combination ds counts - (tmp - k * d) := by ring
            rw [this]; exact h

end Price

namespace Price

theorem reduce_eval (val cat : ℚ) (k : Nat) (val' : ℚ) (hcat : 0 < cat)
    (hne : ¬ |val - cat| < tolerance) (hv : val' = val - k * cat)
    (h1 : val' ≤ cat) (h2 : k ≠ 0 → k * cat < val) (hk : k < 2147483648) :
    reduce val cat = some (⟨(k : Int), cat⟩, val') := by
  have hne' : doubleEquals val cat = false := by
    rw [← Bool.not_eq_true, doubleEquals_iff]; exact hne
  rw [hv] at h1 ⊢
  exact reduce_of_count val cat hcat hne' k h1 h2 hk

theorem asCoins_of_loop (p : Price) (ds : List ℚ) (coins : CoinArray) (rem : ℚ)
    (h : asCoinsLoop ds p.value [] = some (coins, rem)) :
    asCoins p ds = some (if |rem| < tolerance then coins else []) := by
  unfold asCoins
  rw [h]
  have hiff := doubleEquals_iff 0 rem
  rw [zero_sub, abs_neg] at hiff
  by_cases hr : |rem| < tolerance
  · simp [hiff.mpr hr, hr]
  · have : doubleEquals 0 rem = false := by
      rw [← Bool.not_eq_true, hiff]; exact hr
    simp [this, hr]

/-- The loop of `asCoins` on 12.60 over the coins 2, 1, 0.5, 0.2, 0.1. -/
theorem asCoinsLoop_demo :
    asCoinsLoop [2, 1, 1 / 2, 1 / 5, 1 / 10] (63 / 5) [] =
      some ([⟨6, 2⟩, ⟨0, 1⟩, ⟨1, 1 / 2⟩, ⟨0, 1 / 5⟩, ⟨1, 1 / 10⟩], 0) := by
  have r1 : reduce (63 / 5) 2 = some (⟨((6 : Nat) : Int), 2⟩, 3 / 5) :=
    reduce_eval _ _ 6 _ (by norm_num) (by norm_num [abs_lt, tolerance]) (by norm_num)
      (by norm_num) (by norm_num) (by norm_num)
  have r2 : reduce (3 / 5) 1 = some (⟨((0 : Nat) : Int), 1⟩, 3 / 5) :=
    reduce_eval _ _ 0 _ (by norm_num) (by norm_num [abs_lt, tolerance]) (by norm_num)
      (by norm_num) (by norm_num) (by norm_num)
  have r3 : reduce (3 / 5) (1 / 2) = some (⟨((1 : Nat) : Int), 1 / 2⟩, 1 / 10) :=
    reduce_eval _ _ 1 _ (by norm_num) (by norm_num [abs_lt, tolerance]) (by norm_num)
      (by norm_num) (by norm_num) (by norm_num)
  have r4 : reduce (1 / 10) (1 / 5) = some (⟨((0 : Nat) : Int), 1 / 5⟩, 1 / 10) :=
    reduce_eval _ _ 0 _ (by norm_num) (by norm_num [abs_lt, tolerance]) (by norm_num)
      (by norm_num) (by norm_num) (by norm_num)
  have r5 : reduce (1 / 10) (1 / 10) = some (⟨1, 1 / 10⟩, 0) :=
    reduce_of_equal _ _ ((doubleEquals_iff _ _).mpr (by norm_num [tolerance]))
  rw [asCoinsLoop_step _ _ _ _ _ _ r1, asCoinsLoop_step _ _ _ _ _ _ r2,
    asCoinsLoop_step _ _ _ _ _ _ r3, asCoinsLoop_step _ _ _ _ _ _ r4,
    asCoinsLoop_step _ _ _ _ _ _ r5, asCoinsLoop]
  simp

end Price

/-! ## Purchase: lookup, comparison and validation -/

namespace VendingMachine

/-- C9 (code at the failing input): the amounts `0` and `0.00000000005` differ by less
than the tolerance, yet `0 >= 0.00000000005` is false; a balance that is below the
price 2 by `0.00000000005` does not pass the funds check of `buy`. -/
theorem ge_ignores_tolerance :
    |(⟨0⟩ : Price).value - (⟨1 / 20000000000⟩ : Price).value| < tolerance ∧
    Price.ge ⟨0⟩ ⟨1 / 20000000000⟩ = false ∧
    buy ⟨[⟨⟨"Cola"⟩, ⟨2⟩, 3⟩]⟩ "Cola" 1 ⟨2 - 1 / 20000000000⟩ =
      (Drink.default, ⟨[⟨⟨"Cola"⟩, ⟨2⟩, 3⟩]⟩, ⟨2 - 1 / 20000000000⟩) := by
  refine ⟨by norm_num [tolerance, abs_lt], by simp [Price.ge], ?_⟩
  apply buy_reject
  intro s hs
  simp only [List.mem_singleton] at hs
  subst hs
  simp [sells, castInt_of_lt, Price.ge, Price.mul]

/-- C10 (code at the failing input): the single slot `Cola` has price 2 and stock
3000000000; with balance 12.60 a purchase of 3000000000 units costs 6000000000,
far above the balance, yet `(int)amount` is `-1294967296`, the funds check
`12.60 >= 2 * -1294967296` passes, the stock is taken to 0 and the balance is
debited 3000000000 times to `12.60 - 6000000000`. -/
theorem buy_wrapped_count_passes_funds_check :
    (3000000000 : Nat) < 4294967296 ∧
    castInt 3000000000 = -1294967296 ∧
    ¬ ((⟨⟨"Cola"⟩, ⟨2⟩, 3000000000⟩ : Slot).price.value * (3000000000 : Nat) ≤
        (⟨63 / 5⟩ : Price).value) ∧
    buy ⟨[⟨⟨"Cola"⟩, ⟨2⟩, 3000000000⟩]⟩ "Cola" 3000000000 ⟨63 / 5⟩ =
      (⟨"Cola"⟩, ⟨[⟨⟨"Cola"⟩, ⟨2⟩, 0⟩]⟩, ⟨63 / 5 - 6000000000⟩) := by
  have hc : castInt 3000000000 = (3000000000 : Int) - 4294967296 :=
    castInt_of_ge (by norm_num) (by norm_num)
  refine ⟨by norm_num, by rw [hc]; norm_num, by norm_num, ?_⟩
  have h := buy_sale "Cola" 3000000000 ⟨63 / 5⟩ [] ⟨⟨"Cola"⟩, ⟨2⟩, 3000000000⟩ []
    (by simp) (by simp [sells, hc, Price.ge, Price.mul, Drink.eqString]; norm_num)
    (by norm_num)
  rw [List.nil_append] at h
  rw [h]
  norm_num

end VendingMachine

/-! ## Decomposition into coins -/

namespace Price

/-- C5 (counterexample): 6 is `0 * 4 + 2 * 3`, so it is expressible in the
descending positive denominations 4 and 3, yet the greedy pass takes one 4, is
left with 2 and `asCoins` returns the empty breakdown, whose sum 0 is not within
tolerance of 6. -/
theorem asCoins_six_over_four_three :
    (0 : ℚ) ≤ 6 ∧ List.Sorted (fun x y : ℚ => x ≥ y) [4, 3] ∧
    (∀ d ∈ ([4, 3] : List ℚ), 0 < d) ∧ combination [4, 3] [0, 2] = 6 ∧
    asCoins ⟨6⟩ [4, 3] = some [] ∧ ¬ |coinSum [] - 6| < tolerance := by
  have r1 : reduce 6 4 = some (⟨((1 : Nat) : Int), 4⟩, 2) :=
    reduce_eval _ _ 1 _ (by norm_num) (by norm_num [abs_lt, tolerance]) (by norm_num)
      (by norm_num) (by norm_num) (by norm_num)
  have r2 : reduce 2 3 = some (⟨((0 : Nat) : Int), 3⟩, 2) :=
    reduce_eval _ _ 0 _ (by norm_num) (by norm_num [abs_lt, tolerance]) (by norm_num)
      (by norm_num) (by norm_num) (by norm_num)
  have hloop : asCoinsLoop [4, 3] (⟨6⟩ : Price).value [] =
      some ([⟨((1 : Nat) : Int), 4⟩, ⟨((0 : Nat) : Int), 3⟩], 2) := by
    rw [asCoinsLoop_step _ _ _ _ _ _ r1, asCoinsLoop_step _ _ _ _ _ _ r2, asCoinsLoop]
    simp
  refine ⟨by norm_num, by simp; norm_num, by simp, by norm_num [combination], ?_, ?_⟩
  · rw [asCoins_of_loop _ _ _ _ hloop, if_neg (by norm_num [abs_lt, tolerance])]
  · norm_num [coinSum, abs_lt, tolerance]

/-- C6 (counterexample): over the descending positive denominations
`0.00000000007` and `0.00000000006` the amount 0 is tolerance-equal to each
denomination, so `asCoins` returns one coin of each: a non-empty breakdown whose
sum `0.00000000013` is not within tolerance of the amount. -/
theorem asCoins_below_tolerance_denominations :
    List.Sorted (fun x y : ℚ => x ≥ y) [7 / 100000000000, 6 / 100000000000] ∧
    (∀ d ∈ ([7 / 100000000000, 6 / 100000000000] : List ℚ), 0 < d) ∧
    asCoins ⟨0⟩ [7 / 100000000000, 6 / 100000000000] =
      some [⟨1, 7 / 100000000000⟩, ⟨1, 6 / 100000000000⟩] ∧
    ¬ |coinSum [⟨1, 7 / 100000000000⟩, ⟨1, 6 / 100000000000⟩] - 0| < tolerance := by
  have r1 : reduce 0 (7 / 100000000000) = some (⟨1, 7 / 100000000000⟩, 0) :=
    reduce_of_equal _ _ ((doubleEquals_iff _ _).mpr (by norm_num [tolerance, abs_lt]))
  have r2 : reduce 0 (6 / 100000000000) = some (⟨1, 6 / 100000000000⟩, 0) :=
    reduce_of_equal _ _ ((doubleEquals_iff _ _).mpr (by norm_num [tolerance, abs_lt]))
  have hloop : asCoinsLoop [7 / 100000000000, 6 / 100000000000] (⟨0⟩ : Price).value [] =
      some ([⟨1, 7 / 100000000000⟩, ⟨1, 6 / 100000000000⟩], 0) := by
    rw [asCoinsLoop_step _ _ _ _ _ _ r1, asCoinsLoop_step _ _ _ _ _ _ r2, asCoinsLoop]
    simp
  refine ⟨by simp; norm_num, by simp, ?_, ?_⟩
  · rw [asCoins_of_loop _ _ _ _ hloop, if_pos (by norm_num [tolerance])]
  · norm_num [coinSum, abs_lt, tolerance]

/-- C7 (code at the failing input): 0.4 is four times 0.1, yet over the coins
2, 1, 0.5, 0.2, 0.1 the loop of `reduce` stops at a remainder equal to the
denomination (0.4 leaves 0.2 after one 0.2, then 0.1 after one 0.1), the final
remainder 0.1 is not zero and `asCoins` returns the empty breakdown. -/
theorem asCoins_standard_coins_forty_cents :
    (2 / 5 : ℚ) = (4 : Nat) * (1 / 10) ∧
    asCoinsLoop [2, 1, 1 / 2, 1 / 5, 1 / 10] (2 / 5) [] =
      some ([⟨0, 2⟩, ⟨0, 1⟩, ⟨0, 1 / 2⟩, ⟨1, 1 / 5⟩, ⟨1, 1 / 10⟩], 1 / 10) ∧
    asCoins ⟨2 / 5⟩ [2, 1, 1 / 2, 1 / 5, 1 / 10] = some [] := by
  have r1 : reduce (2 / 5) 2 = some (⟨((0 : Nat) : Int), 2⟩, 2 / 5) :=
    reduce_eval _ _ 0 _ (by norm_num) (by norm_num [abs_lt, tolerance]) (by norm_num)
      (by norm_num) (by norm_num) (by norm_num)
  have r2 : reduce (2 / 5) 1 = some (⟨((0 : Nat) : Int), 1⟩, 2 / 5) :=
    reduce_eval _ _ 0 _ (by norm_num) (by norm_num [abs_lt, tolerance]) (by norm_num)
      (by norm_num) (by norm_num) (by norm_num)
  have r3 : reduce (2 / 5) (1 / 2) = some (⟨((0 : Nat) : Int), 1 / 2⟩, 2 / 5) :=
    reduce_eval _ _ 0 _ (by norm_num) (by norm_num [abs_lt, tolerance]) (by norm_num)
      (by norm_num) (by norm_num) (by norm_num)
  have r4 : reduce (2 / 5) (1 / 5) = some (⟨((1 : Nat) : Int), 1 / 5⟩, 1 / 5) :=
    reduce_eval _ _ 1 _ (by norm_num) (by norm_num [abs_lt, tolerance]) (by norm_num)
      (by norm_num) (by norm_num) (by norm_num)
  have r5 : reduce (1 / 5) (1 / 10) = some (⟨((1 : Nat) : Int), 1 / 10⟩, 1 / 10) :=
    reduce_eval _ _ 1 _ (by norm_num) (by norm_num [abs_lt, tolerance]) (by norm_num)
      (by norm_num) (by norm_num) (by norm_num)
  have hloop : asCoinsLoop [2, 1, 1 / 2, 1 / 5, 1 / 10] (2 / 5) [] =
      some ([⟨0, 2⟩, ⟨0, 1⟩, ⟨0, 1 / 2⟩, ⟨1, 1 / 5⟩, ⟨1, 1 / 10⟩], 1 / 10) := by
    rw [asCoinsLoop_step _ _ _ _ _ _ r1, asCoinsLoop_step _ _ _ _ _ _ r2,
      asCoinsLoop_step _ _ _ _ _ _ r3, asCoinsLoop_step _ _ _ _ _ _ r4,
      asCoinsLoop_step _ _ _ _ _ _ r5, asCoinsLoop]
    simp
  refine ⟨by norm_num, hloop, ?_⟩
  rw [asCoins_of_loop ⟨2 / 5⟩ _ _ _ hloop, if_neg (by norm_num [abs_lt, tolerance])]

/-- C8: the amount 12.60 over the coins 2, 1, 0.5, 0.2, 0.1 decomposes to exactly
the five entries (2, 6), (1, 0), (0.5, 1), (0.2, 0), (0.1, 1) in that order, and
they sum to 12.60. -/
theorem asCoins_demo_amount :
    asCoins ⟨63 / 5⟩ [2, 1, 1 / 2, 1 / 5, 1 / 10] =
      some [⟨6, 2⟩, ⟨0, 1⟩, ⟨1, 1 / 2⟩, ⟨0, 1 / 5⟩, ⟨1, 1 / 10⟩] ∧
    coinSum [⟨6, 2⟩, ⟨0, 1⟩, ⟨1, 1 / 2⟩, ⟨0, 1 / 5⟩, ⟨1, 1 / 10⟩] = 63 / 5 := by
  refine ⟨?_, by norm_num [coinSum]⟩
  rw [asCoins_of_loop ⟨63 / 5⟩ _ _ _ asCoinsLoop_demo, if_pos (by norm_num [tolerance])]

end Price

/-! ## Purchase: stock and frame -/

namespace VendingMachine

theorem first_selling_slot (selector : String) (amount : Nat) (change : Price)
    (drinks : List Slot) :
    (∀ s ∈ drinks, sells selector amount change s = false) ∨
      ∃ (pre : List Slot) (it : Slot) (post : List Slot), drinks = pre ++ it :: post ∧
        (∀ s ∈ pre, sells selector amount change s = false) ∧
        sells selector amount change it = true := by
  induction drinks with
  | nil => exact Or.inl (fun s hs => absurd hs (List.not_mem_nil s))
  | cons x rest ih =>
      by_cases hx : sells selector amount change x = true
      · exact Or.inr ⟨[], x, rest, rfl, fun s hs => absurd hs (List.not_mem_nil s), hx⟩
      · have hx' : sells selector amount change x = false := by simpa using hx
        rcases ih with h | ⟨pre, it, post, hl, hpre, hit⟩
        · left
          intro s hs
          rcases List.mem_cons.mp hs with rfl | hs'
          · exact hx'
          · exact h s hs'
        · right
          refine ⟨x :: pre, it, post, by rw [hl, List.cons_append], ?_, hit⟩
          intro s hs
          rcases List.mem_cons.mp hs with rfl | hs'
          · exact hx'
          · exact hpre s hs'

/-- The two outcomes of `buy`: nothing changes and the default drink is returned, or
exactly one slot, the first one that the search loop sells from, has its stock
reduced and the change is debited. -/
theorem buy_cases (vm : VendingMachine) (selector : String) (amount : Nat)
    (change : Price) :
    ((∀ s ∈ vm.drinks, sells selector amount change s = false) ∧
        buy vm selector amount change = (Drink.default, vm, change)) ∨
      ∃ (pre : List Slot) (it : Slot) (post : List Slot), vm.drinks = pre ++ it :: post ∧
        (∀ s ∈ pre, sells selector amount change s = false) ∧
        sells selector amount change it = true ∧
        buy vm selector amount change =
          (it.drink, ⟨pre ++ { it with amount := subCount it.amount amount } :: post⟩,
            ⟨change.value - amount * it.price.value⟩) := by
  rcases first_selling_slot selector amount change vm.drinks with h | ⟨pre, it, post, hl, hpre, hit⟩
  · exact Or.inl ⟨h, buy_reject vm selector amount change h⟩
  · right
    refine ⟨pre, it, post, hl, hpre, hit, ?_⟩
    have hvm : vm = ⟨pre ++ it :: post⟩ := by
      cases vm; simp only [VendingMachine.mk.injEq]; exact hl
    rw [hvm]
    exact buy_sale_wrap selector amount change pre it post hpre hit

theorem forall₂_update {R : Slot → Slot → Prop} (pre : List Slot) (it it' : Slot)
    (post : List Slot) (hrefl : ∀ s ∈ pre ++ it :: post, R s s) (hit : R it it') :
    List.Forall₂ R (pre ++ it :: post) (pre ++ it' :: post) := by
  induction pre with
  | nil =>
      refine List.Forall₂.cons hit ?_
      exact List.forall₂_same.mpr (fun s hs => hrefl s (by simp [hs]))
  | cons x rest ih =>
      refine List.Forall₂.cons (hrefl x (by simp)) ?_
      exact ih (fun s hs => hrefl s (by
        rw [List.cons_append]; exact List.mem_cons_of_mem _ hs))

/-- C11: for every machine whose stocks are 32-bit counts, every selector, count and
balance, after `buy` each slot's stock is at most its stock before; a stock that
changed belonged to a slot with `amount <= stock`, and the new stock is the exact
integer difference, so the unsigned subtraction did not wrap around; a slot whose
stock is below the requested count keeps its stock. -/
theorem buy_stock_never_increases (vm : VendingMachine) (selector : String)
    (amount : Nat) (change : Price)
    (hw : ∀ s ∈ vm.drinks, s.amount < 4294967296) :
    List.Forall₂
      (fun before after : Slot =>
        after.amount ≤ before.amount ∧
        (after.amount ≠ before.amount →
          amount ≤ before.amount ∧
            (after.amount : Int) = (before.amount : Int) - (amount : Int)) ∧
        (before.amount < amount → after.amount = before.amount))
      vm.drinks (buy vm selector amount change).2.1.drinks := by
  rcases buy_cases vm selector amount change with ⟨_, hb⟩ | ⟨pre, it, post, hl, _, hit, hb⟩
  · rw [hb]
    exact List.forall₂_same.mpr (fun s _ => ⟨le_refl _, fun h => absurd rfl h, fun _ => rfl⟩)
  · rw [hb, hl]
    have hle : amount ≤ it.amount := sells_stock selector amount change it hit
    have hit_w : it.amount < 4294967296 := hw it (by rw [hl]; simp)
    have hsub : subCount it.amount amount = it.amount - amount :=
      subCount_of_le it.amount amount hle hit_w
    refine forall₂_update pre it _ post
      (fun s _ => ⟨le_refl _, fun h => absurd rfl h, fun _ => rfl⟩) ?_
    simp only [hsub]
    refine ⟨Nat.sub_le _ _, fun _ => ⟨hle, by omega⟩, fun h => by omega⟩

theorem buy_stock_never_increases_witness :
    List.Forall₂
      (fun before after : Slot =>
        after.amount ≤ before.amount ∧
        (after.amount ≠ before.amount →
          2 ≤ before.amount ∧ (after.amount : Int) = (before.amount : Int) - ((2 : Nat) : Int)) ∧
        (before.amount < 2 → after.amount = before.amount))
      (⟨[⟨⟨"Cola"⟩, ⟨2⟩, 1⟩, ⟨⟨"Cola"⟩, ⟨2⟩, 5⟩]⟩ : VendingMachine).drinks
      (buy ⟨[⟨⟨"Cola"⟩, ⟨2⟩, 1⟩, ⟨⟨"Cola"⟩, ⟨2⟩, 5⟩]⟩ "Cola" 2 ⟨10⟩).2.1.drinks :=
  buy_stock_never_increases ⟨[⟨⟨"Cola"⟩, ⟨2⟩, 1⟩, ⟨⟨"Cola"⟩, ⟨2⟩, 5⟩]⟩ "Cola" 2 ⟨10⟩
    (by simp)

/-- C16: for every machine, selector, count and balance, `buy` leaves the number of
slots and, in order, every slot's drink and price unchanged; either the slot list is
unchanged altogether, or exactly one slot has its stock replaced, every slot before
and after it being kept as it was, and that slot's drink is returned. -/
theorem buy_frame (vm : VendingMachine) (selector : String) (amount : Nat)
    (change : Price) :
    (buy vm selector amount change).2.1.drinks.length = vm.drinks.length ∧
    (buy vm selector amount change).2.1.drinks.map Slot.drink = vm.drinks.map Slot.drink ∧
    (buy vm selector amount change).2.1.drinks.map Slot.price = vm.drinks.map Slot.price ∧
    ((buy vm selector amount change).2.1 = vm ∨
      ∃ (pre : List Slot) (it : Slot) (post : List Slot), vm.drinks = pre ++ it :: post ∧
        (buy vm selector amount change).2.1.drinks =
          pre ++ { it with amount := subCount it.amount amount } :: post ∧
        (buy vm selector amount change).1 = it.drink) := by
  rcases buy_cases vm selector amount change with ⟨_, hb⟩ | ⟨pre, it, post, hl, _, _, hb⟩
  · rw [hb]
    exact ⟨rfl, rfl, rfl, Or.inl rfl⟩
  · rw [hb, hl]
    refine ⟨by simp, by simp, by simp, Or.inr ⟨pre, it, post, rfl, rfl, rfl⟩⟩

end VendingMachine

/-! ## Bulk load -/

namespace VendingMachine

theorem fillVectors_drinks (vm : VendingMachine) (items : List Drink)
    (prices : List Price) (counts : List Nat) :
    (fillVectors vm items prices counts).drinks =
      vm.drinks ++ zipSlots items prices counts := by
  induction items generalizing vm prices counts with
  | nil => simp [fillVectors, zipSlots]
  | cons d items ih =>
      cases prices with
      | nil => simp [fillVectors, zipSlots]
      | cons p prices =>
          cases counts with
          | nil => simp [fillVectors, zipSlots]
          | cons a counts =>
              rw [fillVectors, ih]
              simp [zipSlots]

theorem foldl_fill_drinks (slots : List Slot) (vm : VendingMachine) :
    (slots.foldl (fun m s => m.fill s.drink s.price s.amount) vm).drinks =
      vm.drinks ++ slots := by
  induction slots generalizing vm with
  | nil => simp
  | cons s slots ih =>
      rw [List.foldl_cons, ih]
      simp [fill]

/-- C12: for every machine and every three sequences, the bulk `fill` yields the old
slot list followed by the slots `(items[i], prices[i], counts[i])` for `i` below the
shortest of the three lengths, as many as that shortest length, and this is the
machine obtained by the single-slot `fill` on those triples in order. -/
theorem fillVectors_eq_repeated_fill (vm : VendingMachine) (items : List Drink)
    (prices : List Price) (counts : List Nat) :
    (fillVectors vm items prices counts).drinks =
      vm.drinks ++ zipSlots items prices counts ∧
    (zipSlots items prices counts).length =
      min items.length (min prices.length counts.length) ∧
    (∀ (i : Nat) (d : Drink) (p : Price) (a : Nat), items[i]? = some d →
      prices[i]? = some p → counts[i]? = some a →
      (fillVectors vm items prices counts).drinks[vm.drinks.length + i]? =
        some ⟨d, p, a⟩) ∧
    fillVectors vm items prices counts = fillRepeated vm items prices counts := by
  have hd := fillVectors_drinks vm items prices counts
  refine ⟨hd, by simp [zipSlots], ?_, ?_⟩
  · intro i d p a hi hp ha
    rw [hd, List.getElem?_append_right (Nat.le_add_right _ _), Nat.add_sub_cancel_left]
    simp only [zipSlots, List.getElem?_map, List.getElem?_zip_eq_some, Option.map_eq_some']
    exact ⟨(d, p, a), ⟨hi, hp, ha⟩, rfl⟩
  · have h2 : (fillRepeated vm items prices counts).drinks =
        vm.drinks ++ zipSlots items prices counts := foldl_fill_drinks _ vm
    cases hv : fillVectors vm items prices counts
    cases hr : fillRepeated vm items prices counts
    rw [hv] at hd
    rw [hr] at h2
    simp only at hd h2
    rw [hd, h2]

end VendingMachine

/-! ## Decomposition: greedy step -/

namespace Price

/-- C13 (code at the failing input): for the remainder 4 and the denomination 2 the
loop of `reduce` subtracts once and stops, because `2 > 2` is false: the count is 1
although `2 * 2 <= 4`, and the remainder 2 is not smaller than the denomination. -/
theorem reduce_four_by_two :
    reduce 4 2 = some (⟨1, 2⟩, 2) ∧ ((2 : Nat) : ℚ) * 2 ≤ 4 ∧ ¬ ((2 : ℚ) < 2) := by
  have r : reduce 4 2 = some (⟨((1 : Nat) : Int), 2⟩, 2) :=
    reduce_eval _ _ 1 _ (by norm_num) (by norm_num [abs_lt, tolerance]) (by norm_num)
      (by norm_num) (by norm_num) (by norm_num)
  exact ⟨by rw [r]; rfl, by norm_num, by norm_num⟩

end Price

/-! ## The run of `main` -/

namespace Price

/-- The loop of `asCoins` on 4.80 over the coins 2, 1, 0.5, 0.2, 0.1. -/
theorem asCoinsLoop_remaining :
    asCoinsLoop [2, 1, 1 / 2, 1 / 5, 1 / 10] (24 / 5) [] =
      some ([⟨2, 2⟩, ⟨0, 1⟩, ⟨1, 1 / 2⟩, ⟨1, 1 / 5⟩, ⟨1, 1 / 10⟩], 0) := by
  have r1 : reduce (24 / 5) 2 = some (⟨((2 : Nat) : Int), 2⟩, 4 / 5) :=
    reduce_eval _ _ 2 _ (by norm_num) (by norm_num [abs_lt, tolerance]) (by norm_num)
      (by norm_num) (by norm_num) (by norm_num)
  have r2 : reduce (4 / 5) 1 = some (⟨((0 : Nat) : Int), 1⟩, 4 / 5) :=
    reduce_eval _ _ 0 _ (by norm_num) (by norm_num [abs_lt, tolerance]) (by norm_num)
      (by norm_num) (by norm_num) (by norm_num)
  have r3 : reduce (4 / 5) (1 / 2) = some (⟨((1 : Nat) : Int), 1 / 2⟩, 3 / 10) :=
    reduce_eval _ _ 1 _ (by norm_num) (by norm_num [abs_lt, tolerance]) (by norm_num)
      (by norm_num) (by norm_num) (by norm_num)
  have r4 : reduce (3 / 10) (1 / 5) = some (⟨((1 : Nat) : Int), 1 / 5⟩, 1 / 10) :=
    reduce_eval _ _ 1 _ (by norm_num) (by norm_num [abs_lt, tolerance]) (by norm_num)
      (by norm_num) (by norm_num) (by norm_num)
  have r5 : reduce (1 / 10) (1 / 10) = some (⟨1, 1 / 10⟩, 0) :=
    reduce_of_equal _ _ ((doubleEquals_iff _ _).mpr (by norm_num [tolerance]))
  rw [asCoinsLoop_step _ _ _ _ _ _ r1, asCoinsLoop_step _ _ _ _ _ _ r2,
    asCoinsLoop_step _ _ _ _ _ _ r3, asCoinsLoop_step _ _ _ _ _ _ r4,
    asCoinsLoop_step _ _ _ _ _ _ r5, asCoinsLoop]
  simp

end Price

namespace VendingMachine

theorem mainMachine_drinks :
    mainMachine = ⟨[⟨⟨"Coca Cola"⟩, ⟨2⟩, 3⟩, ⟨⟨"Grape Soda"⟩, ⟨3 / 2⟩, 5⟩,
      ⟨⟨"Orange Soda"⟩, ⟨13 / 10⟩, 6⟩, ⟨⟨"Bottled Water"⟩, ⟨6 / 5⟩, 8⟩,
      ⟨⟨"Sapphire Martini"⟩, ⟨13⟩, 1⟩]⟩ := by
  simp [mainMachine, fillVectors, fillArgs, fill]

theorem main_first_purchase :
    buy ⟨[⟨⟨"Coca Cola"⟩, ⟨2⟩, 3⟩, ⟨⟨"Grape Soda"⟩, ⟨3 / 2⟩, 5⟩,
      ⟨⟨"Orange Soda"⟩, ⟨13 / 10⟩, 6⟩, ⟨⟨"Bottled Water"⟩, ⟨6 / 5⟩, 8⟩,
      ⟨⟨"Sapphire Martini"⟩, ⟨13⟩, 1⟩]⟩ "Coca Cola" 2 ⟨63 / 5⟩ =
    (⟨"Coca Cola"⟩, ⟨[⟨⟨"Coca Cola"⟩, ⟨2⟩, 1⟩, ⟨⟨"Grape Soda"⟩, ⟨3 / 2⟩, 5⟩,
      ⟨⟨"Orange Soda"⟩, ⟨13 / 10⟩, 6⟩, ⟨⟨"Bottled Water"⟩, ⟨6 / 5⟩, 8⟩,
      ⟨⟨"Sapphire Martini"⟩, ⟨13⟩, 1⟩]⟩, ⟨43 / 5⟩) := by
  have h := buy_sale "Coca Cola" 2 ⟨63 / 5⟩ [] ⟨⟨"Coca Cola"⟩, ⟨2⟩, 3⟩
    [⟨⟨"Grape Soda"⟩, ⟨3 / 2⟩, 5⟩, ⟨⟨"Orange Soda"⟩, ⟨13 / 10⟩, 6⟩,
      ⟨⟨"Bottled Water"⟩, ⟨6 / 5⟩, 8⟩, ⟨⟨"Sapphire Martini"⟩, ⟨13⟩, 1⟩]
    (by simp)
    (by simp [sells, castInt_of_lt, Price.ge, Price.mul, Drink.eqString]; norm_num)
    (by norm_num)
  rw [List.nil_append] at h
  rw [h]
  norm_num

theorem main_second_purchase :
    buy ⟨[⟨⟨"Coca Cola"⟩, ⟨2⟩, 1⟩, ⟨⟨"Grape Soda"⟩, ⟨3 / 2⟩, 5⟩,
      ⟨⟨"Orange Soda"⟩, ⟨13 / 10⟩, 6⟩, ⟨⟨"Bottled Water"⟩, ⟨6 / 5⟩, 8⟩,
      ⟨⟨"Sapphire Martini"⟩, ⟨13⟩, 1⟩]⟩ "Orange Soda" 2 ⟨43 / 5⟩ =
    (⟨"Orange Soda"⟩, ⟨[⟨⟨"Coca Cola"⟩, ⟨2⟩, 1⟩, ⟨⟨"Grape Soda"⟩, ⟨3 / 2⟩, 5⟩,
      ⟨⟨"Orange Soda"⟩, ⟨13 / 10⟩, 4⟩, ⟨⟨"Bottled Water"⟩, ⟨6 / 5⟩, 8⟩,
      ⟨⟨"Sapphire Martini"⟩, ⟨13⟩, 1⟩]⟩, ⟨6⟩) := by
  have h := buy_sale "Orange Soda" 2 ⟨43 / 5⟩
    [⟨⟨"Coca Cola"⟩, ⟨2⟩, 1⟩, ⟨⟨"Grape Soda"⟩, ⟨3 / 2⟩, 5⟩]
    ⟨⟨"Orange Soda"⟩, ⟨13 / 10⟩, 6⟩
    [⟨⟨"Bottled Water"⟩, ⟨6 / 5⟩, 8⟩, ⟨⟨"Sapphire Martini"⟩, ⟨13⟩, 1⟩]
    (by simp [sells, Drink.eqString])
    (by simp [sells, castInt_of_lt, Price.ge, Price.mul, Drink.eqString]; norm_num)
    (by norm_num)
  simp only [List.cons_append, List.nil_append] at h
  rw [h]
  norm_num

theorem main_third_purchase :
    buy ⟨[⟨⟨"Coca Cola"⟩, ⟨2⟩, 1⟩, ⟨⟨"Grape Soda"⟩, ⟨3 / 2⟩, 5⟩,
      ⟨⟨"Orange Soda"⟩, ⟨13 / 10⟩, 4⟩, ⟨⟨"Bottled Water"⟩, ⟨6 / 5⟩, 8⟩,
      ⟨⟨"Sapphire Martini"⟩, ⟨13⟩, 1⟩]⟩ "Bottled Water" 1 ⟨6⟩ =
    (⟨"Bottled Water"⟩, ⟨[⟨⟨"Coca Cola"⟩, ⟨2⟩, 1⟩, ⟨⟨"Grape Soda"⟩, ⟨3 / 2⟩, 5⟩,
      ⟨⟨"Orange Soda"⟩, ⟨13 / 10⟩, 4⟩, ⟨⟨"Bottled Water"⟩, ⟨6 / 5⟩, 7⟩,
      ⟨⟨"Sapphire Martini"⟩, ⟨13⟩, 1⟩]⟩, ⟨24 / 5⟩) := by
  have h := buy_sale "Bottled Water" 1 ⟨6⟩
    [⟨⟨"Coca Cola"⟩, ⟨2⟩, 1⟩, ⟨⟨"Grape Soda"⟩, ⟨3 / 2⟩, 5⟩,
      ⟨⟨"Orange Soda"⟩, ⟨13 / 10⟩, 4⟩]
    ⟨⟨"Bottled Water"⟩, ⟨6 / 5⟩, 8⟩
    [⟨⟨"Sapphire Martini"⟩, ⟨13⟩, 1⟩]
    (by simp [sells, Drink.eqString])
    (by simp [sells, castInt_of_lt, Price.ge, Price.mul, Drink.eqString]; norm_num)
    (by norm_num)
  simp only [List.cons_append, List.nil_append] at h
  rw [h]
  norm_num

theorem main_invalid_purchase :
    buy ⟨[⟨⟨"Coca Cola"⟩, ⟨2⟩, 1⟩, ⟨⟨"Grape Soda"⟩, ⟨3 / 2⟩, 5⟩,
      ⟨⟨"Orange Soda"⟩, ⟨13 / 10⟩, 4⟩, ⟨⟨"Bottled Water"⟩, ⟨6 / 5⟩, 7⟩,
      ⟨⟨"Sapphire Martini"⟩, ⟨13⟩, 1⟩]⟩ "Sapphire Martini" 1 ⟨24 / 5⟩ =
    (Drink.default, ⟨[⟨⟨"Coca Cola"⟩, ⟨2⟩, 1⟩, ⟨⟨"Grape Soda"⟩, ⟨3 / 2⟩, 5⟩,
      ⟨⟨"Orange Soda"⟩, ⟨13 / 10⟩, 4⟩, ⟨⟨"Bottled Water"⟩, ⟨6 / 5⟩, 7⟩,
      ⟨⟨"Sapphire Martini"⟩, ⟨13⟩, 1⟩]⟩, ⟨24 / 5⟩) := by
  apply buy_reject
  simp [sells, castInt_of_lt, Price.ge, Price.mul, Drink.eqString]
  norm_num

/-- C17: the run of `main` in exact arithmetic. The machine is loaded with the five
slots in order; the purchases of 2 `Coca Cola`, 2 `Orange Soda` and 1
`Bottled Water` from 12.60 each return the requested drink; the purchase of one
`Sapphire Martini` returns the default drink and changes neither machine nor
change; the final stocks are 1, 5, 4, 7, 1, the final change is 4.80, and its coins
are (2, 2), (1, 0), (0.5, 1), (0.2, 1), (0.1, 1). -/
theorem mainRun_end_state :
    mainMachine.drinks = [⟨⟨"Coca Cola"⟩, ⟨2⟩, 3⟩, ⟨⟨"Grape Soda"⟩, ⟨3 / 2⟩, 5⟩,
      ⟨⟨"Orange Soda"⟩, ⟨13 / 10⟩, 6⟩, ⟨⟨"Bottled Water"⟩, ⟨6 / 5⟩, 8⟩,
      ⟨⟨"Sapphire Martini"⟩, ⟨13⟩, 1⟩] ∧
    buyEach mainMachine ⟨63 / 5⟩
        [("Coca Cola", 2), ("Orange Soda", 2), ("Bottled Water", 1)] =
      ([⟨"Coca Cola"⟩, ⟨"Orange Soda"⟩, ⟨"Bottled Water"⟩],
        ⟨[⟨⟨"Coca Cola"⟩, ⟨2⟩, 1⟩, ⟨⟨"Grape Soda"⟩, ⟨3 / 2⟩, 5⟩,
          ⟨⟨"Orange Soda"⟩, ⟨13 / 10⟩, 4⟩, ⟨⟨"Bottled Water"⟩, ⟨6 / 5⟩, 7⟩,
          ⟨⟨"Sapphire Martini"⟩, ⟨13⟩, 1⟩]⟩, ⟨24 / 5⟩) ∧
    mainRun.bought = [⟨"Coca Cola"⟩, ⟨"Orange Soda"⟩, ⟨"Bottled Water"⟩] ∧
    mainRun.invalid = Drink.default ∧
    mainRun.machine = ⟨[⟨⟨"Coca Cola"⟩, ⟨2⟩, 1⟩, ⟨⟨"Grape Soda"⟩, ⟨3 / 2⟩, 5⟩,
      ⟨⟨"Orange Soda"⟩, ⟨13 / 10⟩, 4⟩, ⟨⟨"Bottled Water"⟩, ⟨6 / 5⟩, 7⟩,
      ⟨⟨"Sapphire Martini"⟩, ⟨13⟩, 1⟩]⟩ ∧
    mainRun.machine.drinks.map Slot.amount = [1, 5, 4, 7, 1] ∧
    mainRun.change = ⟨24 / 5⟩ ∧
    mainRun.coins = some [⟨2, 2⟩, ⟨0, 1⟩, ⟨1, 1 / 2⟩, ⟨1, 1 / 5⟩, ⟨1, 1 / 10⟩] := by
  have hrun : buyEach mainMachine ⟨63 / 5⟩
        [("Coca Cola", 2), ("Orange Soda", 2), ("Bottled Water", 1)] =
      ([⟨"Coca Cola"⟩, ⟨"Orange Soda"⟩, ⟨"Bottled Water"⟩],
        ⟨[⟨⟨"Coca Cola"⟩, ⟨2⟩, 1⟩, ⟨⟨"Grape Soda"⟩, ⟨3 / 2⟩, 5⟩,
          ⟨⟨"Orange Soda"⟩, ⟨13 / 10⟩, 4⟩, ⟨⟨"Bottled Water"⟩, ⟨6 / 5⟩, 7⟩,
          ⟨⟨"Sapphire Martini"⟩, ⟨13⟩, 1⟩]⟩, ⟨24 / 5⟩) := by
    rw [mainMachine_drinks]
    simp only [buyEach, main_first_purchase, main_second_purchase, main_third_purchase]
  have hcoins : (⟨24 / 5⟩ : Price).asCoins mainCoins =
      some [⟨2, 2⟩, ⟨0, 1⟩, ⟨1, 1 / 2⟩, ⟨1, 1 / 5⟩, ⟨1, 1 / 10⟩] := by
    unfold mainCoins
    rw [Price.asCoins_of_loop ⟨24 / 5⟩ _ _ _ Price.asCoinsLoop_remaining,
      if_pos (by norm_num [tolerance])]
  have hmain : mainRun = ⟨[⟨"Coca Cola"⟩, ⟨"Orange Soda"⟩, ⟨"Bottled Water"⟩],
      Drink.default,
      ⟨[⟨⟨"Coca Cola"⟩, ⟨2⟩, 1⟩, ⟨⟨"Grape Soda"⟩, ⟨3 / 2⟩, 5⟩,
        ⟨⟨"Orange Soda"⟩, ⟨13 / 10⟩, 4⟩, ⟨⟨"Bottled Water"⟩, ⟨6 / 5⟩, 7⟩,
        ⟨⟨"Sapphire Martini"⟩, ⟨13⟩, 1⟩]⟩, ⟨24 / 5⟩,
      some [⟨2, 2⟩, ⟨0, 1⟩, ⟨1, 1 / 2⟩, ⟨1, 1 / 5⟩, ⟨1, 1 / 10⟩]⟩ := by
    unfold mainRun
    simp only [hrun, main_invalid_purchase, hcoins]
  refine ⟨by rw [mainMachine_drinks], hrun, ?_, ?_, ?_, ?_, ?_, ?_⟩ <;> rw [hmain]
  rfl

end VendingMachine

/-! ## Decomposition: amounts of exact arithmetic, counter range, rounding -/

namespace Price

theorem exact_sub_mul (r d : ℚ) (k : Nat) (hr : ∃ j : Int, r = j / 4294967296)
    (hd : ∃ j : Int, d = j / 4294967296) : ∃ j : Int, r - k * d = j / 4294967296 := by
  obtain ⟨jr, rfl⟩ := hr
  obtain ⟨jd, rfl⟩ := hd
  refine ⟨jr - k * jd, ?_⟩
  push_cast
  ring

theorem exact_eq_zero_of_abs_lt (x : ℚ) (hx : ∃ j : Int, x = j / 4294967296)
    (h : |x| < tolerance) : x = 0 := by
  obtain ⟨j, rfl⟩ := hx
  by_contra hne
  have hj : j ≠ 0 := by
    rintro rfl
    exact hne (by simp)
  have h1 : (1 : ℚ) ≤ |(j : ℚ)| := by
    have : (1 : Int) ≤ |j| := Int.one_le_abs hj
    exact_mod_cast this
  have h2 : |(j : ℚ) / 4294967296| = |(j : ℚ)| / 4294967296 := by
    rw [abs_div]; norm_num
  rw [h2] at h
  unfold tolerance at h
  have h3 : |(j : ℚ)| < 1 := by
    have := (div_lt_iff₀ (by norm_num : (0 : ℚ) < 4294967296)).mp h
    linarith
  linarith

theorem exact_pos_ge_tolerance (d : ℚ) (hd : ∃ j : Int, d = j / 4294967296)
    (hpos : 0 < d) : tolerance ≤ d := by
  by_contra hlt
  have h : |d| < tolerance := by rw [abs_of_pos hpos]; exact not_le.mp hlt
  exact absurd (exact_eq_zero_of_abs_lt d hd h) (ne_of_gt hpos)

theorem exact_combination (ds : List ℚ) (counts : List Nat)
    (hds : ∀ d ∈ ds, ∃ j : Int, d = j / 4294967296) :
    ∃ j : Int, combination ds counts = j / 4294967296 := by
  induction ds generalizing counts with
  | nil => exact ⟨0, by simp [combination]⟩
  | cons d ds ih =>
      cases counts with
      | nil => exact ⟨0, by simp [combination]⟩
      | cons k ks =>
          obtain ⟨jd, hjd⟩ := hds d (List.mem_cons_self _ _)
          obtain ⟨j, hj⟩ := ih ks (fun x hx => hds x (List.mem_cons_of_mem _ hx))
          refine ⟨jd * k + j, ?_⟩
          have hc : combination (d :: ds) (k :: ks) = d * k + combination ds ks := by
            simp [combination]
          rw [hc, hj, hjd]
          push_cast
          ring

theorem greedy_length (ds : List ℚ) : ∀ (r : ℚ) (ks : List Nat),
    GreedyCounts r ds ks → ks.length = ds.length := by
  induction ds with
  | nil =>
      intro r ks h
      cases ks with
      | nil => rfl
      | cons k ks => simp [GreedyCounts] at h
  | cons d ds ih =>
      intro r ks h
      cases ks with
      | nil => simp [GreedyCounts] at h
      | cons k ks =>
          simp only [GreedyCounts] at h
          simp [ih _ ks h.2.2.2.2]

/-- The loop of `asCoins` on a greedy combination of amounts of exact arithmetic:
the coins are the greedy counts and the remainder is zero. -/
theorem asCoinsLoop_greedy (ds : List ℚ) : ∀ (r : ℚ) (ks : List Nat),
    (∃ j : Int, r = j / 4294967296) →
    (∀ d ∈ ds, (∃ j : Int, d = j / 4294967296) ∧ 0 < d) →
    GreedyCounts r ds ks →
    asCoinsLoop ds r [] = some (breakdown ds ks, 0) ∧ combination ds ks = r := by
  induction ds with
  | nil =>
      intro r ks _ _ h
      cases ks with
      | nil =>
          simp only [GreedyCounts] at h
          subst h
          exact ⟨by simp [asCoinsLoop, breakdown], by simp [combination]⟩
      | cons k ks => simp [GreedyCounts] at h
  | cons d ds ih =>
      intro r ks hr hds h
      cases ks with
      | nil => simp [GreedyCounts] at h
      | cons k ks =>
          simp only [GreedyCounts] at h
          obtain ⟨h1, h2, h3, h4, h5⟩ := h
          obtain ⟨hd, hpos⟩ := hds d (List.mem_cons_self _ _)
          have hrest : ∀ x ∈ ds, (∃ j : Int, x = j / 4294967296) ∧ 0 < x :=
            fun x hx => hds x (List.mem_cons_of_mem _ hx)
          obtain ⟨hloop, hcomb⟩ := ih (r - k * d) ks (exact_sub_mul r d k hr hd) hrest h5
          have hc : combination (d :: ds) (k :: ks) = d * k + combination ds ks := by
            simp [combination]
          have hstep : reduce r d = some (⟨(k : Int), d⟩, r - k * d) := by
            by_cases he : doubleEquals r d = true
            · have hrd : r - d = 0 := by
                have h0 := exact_sub_mul r d 1 hr hd
                simp only [Nat.cast_one, one_mul] at h0
                exact exact_eq_zero_of_abs_lt (r - d) h0 ((doubleEquals_iff r d).mp he)
              have hreq : r = d := by linarith
              have hk1 : k = 1 := by
                have hk0 : k ≠ 0 := by
                  rintro rfl
                  simp only [Nat.cast_zero, zero_mul, sub_zero] at h2
                  linarith
                have hle : (k : ℚ) ≤ 1 := by
                  by_contra hgt
                  have hgt' : (1 : ℚ) < k := not_le.mp hgt
                  nlinarith
                have : k ≤ 1 := by exact_mod_cast hle
                omega
              subst hk1
              rw [reduce_of_equal r d he]
              simp [hreq]
            · have hne : doubleEquals r d = false := by simpa using he
              refine reduce_of_count r d hpos hne k (le_of_lt h2) ?_ h4
              intro hk0
              rcases lt_or_eq_of_le h1 with hlt | heq
              · exact hlt
              · exfalso
                have hk1 : k = 1 := by
                  have := h3 heq.symm
                  omega
                subst hk1
                have hreq : r = d := by rw [← heq]; simp
                apply he
                rw [doubleEquals_iff, hreq, sub_self, abs_zero]
                exact tolerance_pos
          refine ⟨?_, by rw [hc, hcomb]; ring⟩
          rw [asCoinsLoop_step d ds r [] _ _ hstep, asCoinsLoop_acc, hloop]
          simp [breakdown]

/-- C5 (amended): for amounts and positive denominations of exact arithmetic, an
amount that is the greedy combination of the denominations, with every count below
`2 ^ 31` and no remainder that is twice its denomination or a larger multiple of
it, is decomposed: `asCoins` returns exactly the greedy counts, one entry per
denomination, and their sum is the amount. -/
theorem asCoins_round_trip_greedy (a : ℚ) (ds : List ℚ) (ks : List Nat)
    (hexact : ∀ q ∈ a :: ds, ExactAmount q)
    (hpos : ∀ d ∈ ds, 0 < d)
    (hgreedy : GreedyCounts a ds ks) :
    asCoins ⟨a⟩ ds = some (breakdown ds ks) ∧
      (breakdown ds ks).length = ds.length ∧
      coinSum (breakdown ds ks) = a ∧
      |coinSum (breakdown ds ks) - a| < tolerance := by
  have ha : ∃ j : Int, a = j / 4294967296 := (hexact a (List.mem_cons_self _ _)).1
  have hds : ∀ d ∈ ds, (∃ j : Int, d = j / 4294967296) ∧ 0 < d :=
    fun d hd => ⟨(hexact d (List.mem_cons_of_mem _ hd)).1, hpos d hd⟩
  obtain ⟨hloop, hcomb⟩ := asCoinsLoop_greedy ds a ks ha hds hgreedy
  have hsum : coinSum (breakdown ds ks) = a := by rw [coinSum_breakdown, hcomb]
  refine ⟨?_, breakdown_length ds ks (greedy_length ds a ks hgreedy), hsum, ?_⟩
  · rw [asCoins_of_loop ⟨a⟩ ds _ _ hloop, if_pos (by rw [abs_zero]; exact tolerance_pos)]
  · rw [hsum, sub_self, abs_zero]; exact tolerance_pos

theorem asCoins_round_trip_greedy_witness :
    asCoins ⟨25 / 2⟩ [2, 1, 1 / 2, 1 / 4] = some (breakdown [2, 1, 1 / 2, 1 / 4] [6, 0, 1, 0]) ∧
      (breakdown [2, 1, 1 / 2, 1 / 4] [6, 0, 1, 0]).length =
        ([2, 1, 1 / 2, 1 / 4] : List ℚ).length ∧
      coinSum (breakdown [2, 1, 1 / 2, 1 / 4] [6, 0, 1, 0]) = 25 / 2 ∧
      |coinSum (breakdown [2, 1, 1 / 2, 1 / 4] [6, 0, 1, 0]) - 25 / 2| < tolerance :=
  asCoins_round_trip_greedy (25 / 2) [2, 1, 1 / 2, 1 / 4] [6, 0, 1, 0]
    (by
      intro q hq
      simp only [List.mem_cons, List.mem_singleton, List.not_mem_nil, or_false] at hq
      rcases hq with rfl | rfl | rfl | rfl | rfl
      · exact ⟨⟨53687091200, by norm_num⟩, by norm_num [abs_lt]⟩
      · exact ⟨⟨8589934592, by norm_num⟩, by norm_num [abs_lt]⟩
      · exact ⟨⟨4294967296, by norm_num⟩, by norm_num [abs_lt]⟩
      · exact ⟨⟨2147483648, by norm_num⟩, by norm_num [abs_lt]⟩
      · exact ⟨⟨1073741824, by norm_num⟩, by norm_num [abs_lt]⟩)
    (by simp)
    (by simp only [GreedyCounts]; norm_num)

end Price

namespace Price

/-- C6 (amended): for every amount and every list of positive denominations, all of
exact arithmetic, with the amount at most `2 ^ 31` times each denomination (so
that no counter leaves the range of `int`), `asCoins` returns a breakdown that is
either empty or sums to the amount, hence to within tolerance of it; an amount that
no combination of the denominations matches within tolerance yields the empty
breakdown. -/
theorem asCoins_empty_or_within_tolerance (a : ℚ) (ds : List ℚ)
    (hexact : ∀ q ∈ a :: ds, ExactAmount q)
    (hpos : ∀ d ∈ ds, 0 < d)
    (hb : ∀ d ∈ ds, a ≤ 2147483648 * d) :
    ∃ res : CoinArray, asCoins ⟨a⟩ ds = some res ∧
      (res = [] ∨ coinSum res = a) ∧
      (res = [] ∨ |coinSum res - a| < tolerance) ∧
      ((∀ counts : List Nat, counts.length = ds.length →
          ¬ |combination ds counts - a| < tolerance) → res = []) := by
  have ha : ∃ j : Int, a = j / 4294967296 := (hexact a (List.mem_cons_self _ _)).1
  have hde : ∀ d ∈ ds, ∃ j : Int, d = j / 4294967296 :=
    fun d hd => (hexact d (List.mem_cons_of_mem _ hd)).1
  have htol : ∀ d ∈ ds, tolerance ≤ d :=
    fun d hd => exact_pos_ge_tolerance d (hde d hd) (hpos d hd)
  obtain ⟨counts, rem, hlen, hloop, hsum⟩ := asCoinsLoop_spec ds htol a hb
  have has := asCoins_of_loop ⟨a⟩ ds _ _ hloop
  by_cases hrem : |rem| < tolerance
  · have hclose : |combination ds counts - a| < tolerance := by
      rcases hsum with h | ⟨_, h⟩
      · have : combination ds counts - a = -rem := by linarith
        rw [this, abs_neg]; exact hrem
      · exact h
    have hzero : combination ds counts - a = 0 := by
      obtain ⟨jc, hjc⟩ := exact_combination ds counts hde
      obtain ⟨ja, hja⟩ := ha
      refine exact_eq_zero_of_abs_lt _ ⟨jc - ja, ?_⟩ hclose
      rw [hjc, hja]; push_cast; ring
    rw [if_pos hrem] at has
    refine ⟨breakdown ds counts, has, Or.inr ?_, Or.inr ?_,
      fun hno => absurd hclose (hno counts hlen)⟩
    · rw [coinSum_breakdown]; linarith
    · rw [coinSum_breakdown]; exact hclose
  · rw [if_neg hrem] at has
    exact ⟨[], has, Or.inl rfl, Or.inl rfl, fun _ => rfl⟩

theorem asCoins_empty_or_within_tolerance_witness :
    ∃ res : CoinArray, asCoins ⟨25 / 2⟩ [2, 1 / 2] = some res ∧
      (res = [] ∨ coinSum res = 25 / 2) ∧
      (res = [] ∨ |coinSum res - 25 / 2| < tolerance) ∧
      ((∀ counts : List Nat, counts.length = ([2, 1 / 2] : List ℚ).length →
          ¬ |combination [2, 1 / 2] counts - 25 / 2| < tolerance) → res = []) :=
  asCoins_empty_or_within_tolerance (25 / 2) [2, 1 / 2]
    (by
      intro q hq
      simp only [List.mem_cons, List.mem_singleton, List.not_mem_nil, or_false] at hq
      rcases hq with rfl | rfl | rfl
      · exact ⟨⟨53687091200, by norm_num⟩, by norm_num [abs_lt]⟩
      · exact ⟨⟨8589934592, by norm_num⟩, by norm_num [abs_lt]⟩
      · exact ⟨⟨2147483648, by norm_num⟩, by norm_num [abs_lt]⟩)
    (by simp)
    (by simp; norm_num)

theorem reduceLoopRounded_stall (fl : ℚ → ℚ) (val cat : ℚ)
    (hfl : fl (val - cat) = val) (hgt : val > cat) :
    ∀ (fuel : Nat) (amount : Int), reduceLoopRounded fl fuel val cat amount = none := by
  intro fuel
  induction fuel with
  | zero => intro amount; simp [reduceLoopRounded, hgt]
  | succ f ih =>
      intro amount
      rw [reduceLoopRounded, if_pos hgt, hfl]
      exact ih _

theorem reduceLoopRounded_exact (fuel : Nat) (val cat : ℚ) (amount : Int) :
    reduceLoopRounded (fun q => q) fuel val cat amount = reduceLoop fuel val cat amount := by
  induction fuel generalizing val amount with
  | zero => simp [reduceLoopRounded, reduceLoop]
  | succ f ih => simp [reduceLoopRounded, reduceLoop, ih]

/-- C15 (code at the failing input): for the value `10 ^ 17` and the denomination 1,
under every rounding of the subtraction that takes `10 ^ 17 - 1` back to `10 ^ 17`,
as the `double` subtraction does (the `double` values next to `10 ^ 17` are 16
apart), the loop of `reduce` leaves `val` unchanged and has not ended after any
number of iterations. -/
theorem reduce_loop_never_ends (fl : ℚ → ℚ)
    (hfl : fl (100000000000000000 - 1) = 100000000000000000) (fuel : Nat) :
    reduceLoopRounded fl fuel 100000000000000000 1 0 = none :=
  reduceLoopRounded_stall fl 100000000000000000 1 hfl (by norm_num) fuel 0

theorem reduce_loop_never_ends_witness :
    roundToMultiple 16 (100000000000000000 - 1) = 100000000000000000 ∧
      reduceLoopRounded (roundToMultiple 16) 4294967296 100000000000000000 1 0 = none := by
  have h : roundToMultiple 16 (100000000000000000 - 1) = 100000000000000000 := by
    unfold roundToMultiple
    have hr : round ((100000000000000000 - 1 : ℚ) / 16) = 6250000000000000 := by
      rw [round_eq, Int.floor_eq_iff]
      constructor <;> norm_num
    rw [hr]
    norm_num
  exact ⟨h, reduce_loop_never_ends (roundToMultiple 16) h 4294967296⟩

end Price
